import Mathlib

/-!
Verification of the Uniswap v3 historical-data aggregation core
(src/fetch_data.ts): price/tick codec, OHLC bucketing, tick liquidity
ledger, liquidity metrics, paginated ingestion and bounded retry.

The TypeScript source is shallowly embedded: BigNumber values become ℕ/ℤ,
JS numbers carrying exact decimal quantities become ℚ, `Math.log`-based
computation is modelled over ℝ, maps become functions with default 0, and
async loops become explicit recursion (with fuel where the source loop has
no intrinsic bound).
-/

set_option maxHeartbeats 1000000

/-- Swap event as fetched from the subgraph (fields relevant to the
aggregation logic; the remaining string fields of the source interface do
not influence any computation verified here). -/
structure SwapData where
  id : String
  timestamp : ℕ
  sqrtPriceX96 : ℕ
deriving DecidableEq, Repr

/-- Mint (deposit) event: liquidity amount and tick range. -/
structure MintData where
  timestamp : ℕ
  amount : ℕ
  tickLower : ℤ
  tickUpper : ℤ
deriving DecidableEq, Repr

/-- Burn (withdraw) event: liquidity amount and tick range. -/
structure BurnData where
  timestamp : ℕ
  amount : ℕ
  tickLower : ℤ
  tickUpper : ℤ
deriving DecidableEq, Repr

/-- One OHLC bucket: bucket-start timestamp and the four decoded prices. -/
structure OHLCData where
  timestamp : ℕ
  «open» : ℚ
  high : ℚ
  low : ℚ
  close : ℚ
deriving DecidableEq, Repr

/-- Per-bucket liquidity metric paired with an OHLC bucket. -/
structure LiquidityMetric where
  timestamp : ℕ
  activeLiquidityInRange : ℤ
  totalLiquidityInPool : ℤ
  ratio : ℚ
deriving DecidableEq, Repr

/-- Decode a Q64.96 square-root price into a token1-per-token0 price:
square the integer, rescale by decimals, multiply the numerator by the
10^18 scaling factor, divide on integers, and read the quotient as a
decimal with 18 fractional digits.  Mirrors `sqrtPriceX96ToPrice`. -/
def sqrtPriceX96ToPrice (sqrtPriceX96 token0Decimals token1Decimals : ℕ) : ℚ :=
  let priceRatioX192 := sqrtPriceX96 ^ 2
  let numerator := priceRatioX192 * 10 ^ token0Decimals
  let denominator := 2 ^ 192 * 10 ^ token1Decimals
  if denominator = 0 then 0
  else (((numerator * 10 ^ 18) / denominator : ℕ) : ℚ) / (10 ^ 18 : ℚ)

/-- Fee-tier lookup of `getTickSpacingFromFee`; the `default` branch of the
source `switch` throws, modelled as `none`. -/
def getTickSpacingFromFee (fee : ℕ) : Option ℕ :=
  if fee = 100 then some 1
  else if fee = 500 then some 10
  else if fee = 3000 then some 60
  else if fee = 10000 then some 200
  else none

/-- Claim C6: the decoded price equals the exact integer quotient
floor(sqrtPriceX96^2 * 10^decimals0 * 10^18 / (2^192 * 10^decimals1))
rendered as a decimal with 18 fractional digits; the zero-denominator
branch of the source is unreachable because 2^192 * 10^d1 > 0. -/
theorem sqrtPriceX96ToPrice_eq_floor_quotient (s d0 d1 : ℕ) :
    sqrtPriceX96ToPrice s d0 d1 =
      (⌊(s ^ 2 * 10 ^ d0 * 10 ^ 18 : ℚ) / (2 ^ 192 * 10 ^ d1 : ℚ)⌋₊ : ℚ) / 10 ^ 18 := by
  have hden : (2 ^ 192 * 10 ^ d1 : ℕ) ≠ 0 := by positivity
  rw [sqrtPriceX96ToPrice]
  simp only [hden, if_neg hden]
  have : ((s ^ 2 * 10 ^ d0 * 10 ^ 18 : ℚ) / (2 ^ 192 * 10 ^ d1 : ℚ)) =
      (((s ^ 2 * 10 ^ d0 * 10 ^ 18 : ℕ) : ℚ) / ((2 ^ 192 * 10 ^ d1 : ℕ) : ℚ)) := by
    push_cast; ring
  rw [this, Nat.floor_div_nat, Nat.floor_natCast]
  simp

/-- Claim C10: the fee-tier lookup maps 100 to 1, 500 to 10, 3000 to 60 and
10000 to 200, and fails (throws, modelled as `none`) exactly on every other
fee value. -/
theorem getTickSpacingFromFee_spec :
    getTickSpacingFromFee 100 = some 1 ∧
    getTickSpacingFromFee 500 = some 10 ∧
    getTickSpacingFromFee 3000 = some 60 ∧
    getTickSpacingFromFee 10000 = some 200 ∧
    ∀ fee : ℕ, getTickSpacingFromFee fee = none ↔
      ¬ (fee = 100 ∨ fee = 500 ∨ fee = 3000 ∨ fee = 10000) := by
  refine ⟨rfl, rfl, rfl, rfl, ?_⟩
  intro fee
  by_cases h1 : fee = 100 <;> by_cases h2 : fee = 500 <;>
    by_cases h3 : fee = 3000 <;> by_cases h4 : fee = 10000 <;>
    simp [getTickSpacingFromFee, h1, h2, h3, h4]

/-- Convert a price to the nearest tick aligned to the tick spacing, as the
source computes it: `effectivePrice = price * 10^(decimals1 - decimals0)`,
`rawTick = Math.log(effectivePrice) / Math.log(1.00005)`, rounded to the
nearest multiple of the spacing.  The source's transcendental float
computation is modelled over ℝ. -/
noncomputable def priceToTick (price : ℚ) (token0Decimals token1Decimals tickSpacing : ℕ) : ℤ :=
  let effectivePrice : ℝ := (price : ℝ) * 10 ^ ((token1Decimals : ℤ) - (token0Decimals : ℤ))
  let rawTick : ℝ := Real.log effectivePrice / Real.log 1.00005
  round (rawTick / (tickSpacing : ℝ)) * tickSpacing

/-- Modelled from the spec: the claimed formula for `priceToTick`, which
uses `log(sqrt(1.0001))` as the logarithm base where the source uses
`Math.log(1.00005)`.  Stated separately so the two can be compared. -/
noncomputable def priceToTickSpecFormula (price : ℚ) (token0Decimals token1Decimals tickSpacing : ℕ) : ℤ :=
  let effectivePrice : ℝ := (price : ℝ) * 10 ^ ((token1Decimals : ℤ) - (token0Decimals : ℤ))
  let rawTick : ℝ := Real.log effectivePrice / Real.log (Real.sqrt 1.0001)
  round (rawTick / (tickSpacing : ℝ)) * tickSpacing

/-- Bucket-start computation `Math.floor(ts / w) * w` of the source. -/
def bucketStart (w ts : ℕ) : ℕ := ts / w * w

/-- Decoded price of one swap, as computed inside the OHLC loop. -/
def swapPrice (token0Decimals token1Decimals : ℕ) (s : SwapData) : ℚ :=
  sqrtPriceX96ToPrice s.sqrtPriceX96 token0Decimals token1Decimals

/-- Maximum of a price list, `Math.max(...bucketPrices)` on a nonempty list. -/
def listMax : List ℚ → ℚ
  | [] => 0
  | p :: ps => ps.foldl max p

/-- Minimum of a price list, `Math.min(...bucketPrices)` on a nonempty list. -/
def listMin : List ℚ → ℚ
  | [] => 0
  | p :: ps => ps.foldl min p

/-- Close out a bucket: open is the first price seen, high/low the max/min,
close the last price seen. -/
def mkOHLC (cur : ℕ) (bucketPrices : List ℚ) : OHLCData :=
  { timestamp := cur
    «open» := bucketPrices.headI
    high := listMax bucketPrices
    low := listMin bucketPrices
    close := bucketPrices.getLastI }

/-- Loop body of `calculateOHLC`: state is the active bucket start and the
prices accumulated in the active bucket; a swap before the active bucket's
end boundary is pushed, otherwise the active bucket is flushed (when
nonempty) and a new one is seeded with this swap's price; at stream end the
active bucket is flushed when nonempty. -/
def calcOHLCGo (w d0 d1 : ℕ) : ℕ → List ℚ → List SwapData → List OHLCData
  | cur, bucketPrices, [] =>
      if bucketPrices = [] then [] else [mkOHLC cur bucketPrices]
  | cur, bucketPrices, s :: rest =>
      let p := swapPrice d0 d1 s
      if s.timestamp < cur + w then
        calcOHLCGo w d0 d1 cur (bucketPrices ++ [p]) rest
      else
        (if bucketPrices = [] then [] else [mkOHLC cur bucketPrices]) ++
          calcOHLCGo w d0 d1 (bucketStart w s.timestamp) [p] rest

/-- OHLC aggregation of `calculateOHLC`: empty input yields no buckets;
otherwise the loop starts from the bucket of the first swap with an empty
price list. -/
def calculateOHLC (swaps : List SwapData) (bucketIntervalSeconds token0Decimals token1Decimals : ℕ) :
    List OHLCData :=
  match swaps with
  | [] => []
  | s0 :: _ =>
      calcOHLCGo bucketIntervalSeconds token0Decimals token1Decimals
        (bucketStart bucketIntervalSeconds s0.timestamp) [] swaps

/-- Reference grouping form of the OHLC computation: take the maximal run
of swaps sharing the first swap's bucket, emit one record for it, recurse
on the remainder.  Proved equal to `calculateOHLC` on sorted input. -/
def ohlcRef (w d0 d1 : ℕ) : List SwapData → List OHLCData
  | [] => []
  | s :: rest =>
      let b := bucketStart w s.timestamp
      let run := rest.takeWhile (fun x => bucketStart w x.timestamp == b)
      let rem := rest.dropWhile (fun x => bucketStart w x.timestamp == b)
      mkOHLC b ((s :: run).map (swapPrice d0 d1)) :: ohlcRef w d0 d1 rem
termination_by l => l.length
decreasing_by
  simp only [List.length_cons]
  exact Nat.lt_succ_of_le (List.dropWhile_suffix _).length_le

/-- Tick liquidity ledger state: the sparse per-tick accumulator map
(absent tick means zero, here a total function defaulting to 0) and the
pool-total accumulator, both signed large integers as BigNumber is. -/
structure LedgerState where
  tickLiquidity : ℤ → ℤ
  total : ℤ

/-- Ledger at the start of a run: empty map, zero total. -/
def ledger0 : LedgerState := { tickLiquidity := fun _ => 0, total := 0 }

/-- Apply one mint: total += amount and, for every discrete tick in
[tickLower, tickUpper), accumulator[t] += amount. -/
def applyMint (st : LedgerState) (m : MintData) : LedgerState :=
  { total := st.total + m.amount
    tickLiquidity := fun t =>
      if m.tickLower ≤ t ∧ t < m.tickUpper then st.tickLiquidity t + m.amount
      else st.tickLiquidity t }

/-- Apply one burn: total -= amount clamped at zero and, for every discrete
tick in [tickLower, tickUpper), accumulator[t] -= amount clamped at zero. -/
def applyBurn (st : LedgerState) (b : BurnData) : LedgerState :=
  { total := max 0 (st.total - b.amount)
    tickLiquidity := fun t =>
      if b.tickLower ≤ t ∧ t < b.tickUpper then max 0 (st.tickLiquidity t - b.amount)
      else st.tickLiquidity t }

/-- Apply one deposit-or-withdraw event. -/
def applyEvent (st : LedgerState) : MintData ⊕ BurnData → LedgerState
  | .inl m => applyMint st m
  | .inr b => applyBurn st b

/-- Replay a sequence of deposit/withdraw events from the empty ledger. -/
def replayLedger (evs : List (MintData ⊕ BurnData)) : LedgerState :=
  evs.foldl applyEvent ledger0

/-- Timestamp of a deposit-or-withdraw event. -/
def eventTimestamp : MintData ⊕ BurnData → ℕ
  | .inl m => m.timestamp
  | .inr b => b.timestamp

/-- Check that replaying the events from the given state never triggers the
clamp-to-zero branches: every withdraw amount is at most the current total
and at most every per-tick accumulator in its range. -/
def clampFree (st : LedgerState) : List (MintData ⊕ BurnData) → Bool
  | [] => true
  | e :: rest =>
      (match e with
       | .inl _ => true
       | .inr b => decide ((b.amount : ℤ) ≤ st.total ∧
           ∀ t ∈ Finset.Ico b.tickLower b.tickUpper, (b.amount : ℤ) ≤ st.tickLiquidity t))
      && clampFree (applyEvent st e) rest

/-- Sum of deposit amounts of an event sequence. -/
def depositSum (evs : List (MintData ⊕ BurnData)) : ℤ :=
  (evs.map (fun e => match e with | .inl m => (m.amount : ℤ) | .inr _ => 0)).sum

/-- Sum of withdraw amounts of an event sequence. -/
def withdrawSum (evs : List (MintData ⊕ BurnData)) : ℤ :=
  (evs.map (fun e => match e with | .inl _ => 0 | .inr b => (b.amount : ℤ))).sum

/-- Signed sum over events of amount * (upperTick - lowerTick). -/
def signedAreaSum (evs : List (MintData ⊕ BurnData)) : ℤ :=
  (evs.map (fun e => match e with
    | .inl m => (m.amount : ℤ) * (m.tickUpper - m.tickLower)
    | .inr b => -((b.amount : ℤ) * (b.tickUpper - b.tickLower)))).sum

/-- Loop body of `calculateLiquidityMetrics`: for each OHLC bucket, apply
every not-yet-applied mint, then every not-yet-applied burn, with timestamp
before the bucket's end boundary; convert the bucket's low/high prices to
ticks; sum per-tick liquidity over the ordered tick range; and compute the
ratio by scaled integer division (0 when total or active is zero). -/
noncomputable def calcLMGo (d0 d1 sp w : ℕ) :
    List OHLCData → LedgerState → List MintData → List BurnData → List LiquidityMetric
  | [], _, _, _ => []
  | r :: rest, st, mints, burns =>
      let bucketEnd := r.timestamp + w
      let mintsNow := mints.takeWhile (fun m => decide (m.timestamp < bucketEnd))
      let mintsLater := mints.dropWhile (fun m => decide (m.timestamp < bucketEnd))
      let st1 := mintsNow.foldl applyMint st
      let burnsNow := burns.takeWhile (fun b => decide (b.timestamp < bucketEnd))
      let burnsLater := burns.dropWhile (fun b => decide (b.timestamp < bucketEnd))
      let st2 := burnsNow.foldl applyBurn st1
      let lowTickRange := priceToTick r.low d0 d1 sp
      let highTickRange := priceToTick r.high d0 d1 sp
      let finalLowTick := min lowTickRange highTickRange
      let finalHighTick := max lowTickRange highTickRange
      let activeLiquidity := ∑ t ∈ Finset.Ico finalLowTick finalHighTick, st2.tickLiquidity t
      let ratio : ℚ :=
        if st2.total = 0 ∨ activeLiquidity = 0 then 0
        else ((activeLiquidity * 10 ^ 18 / st2.total : ℤ) : ℚ) / 10 ^ 18
      { timestamp := r.timestamp
        activeLiquidityInRange := activeLiquidity
        totalLiquidityInPool := st2.total
        ratio := ratio } :: calcLMGo d0 d1 sp w rest st2 mintsLater burnsLater

/-- Liquidity metrics of `calculateLiquidityMetrics`: sort mints and burns
by timestamp (stable, as `Array.prototype.sort`), then run the per-bucket
replay loop from the empty ledger. -/
noncomputable def calculateLiquidityMetrics (ohlcRecords : List OHLCData)
    (allMints : List MintData) (allBurns : List BurnData)
    (token0Decimals token1Decimals tickSpacing bucketIntervalSeconds : ℕ) :
    List LiquidityMetric :=
  let sortedMints := allMints.mergeSort (fun a b => decide (a.timestamp ≤ b.timestamp))
  let sortedBurns := allBurns.mergeSort (fun a b => decide (a.timestamp ≤ b.timestamp))
  calcLMGo token0Decimals token1Decimals tickSpacing bucketIntervalSeconds
    ohlcRecords ledger0 sortedMints sortedBurns

/-- The modelled remote page service for swaps: the first `maxRecords`
events of the (timestamp-ascending) source with cursor <= timestamp and
timestamp < endTimestamp. -/
def graphSwapPage (db : List SwapData) (endTimestamp maxRecords cursor : ℕ) : List SwapData :=
  (db.filter (fun s => decide (cursor ≤ s.timestamp) && decide (s.timestamp < endTimestamp))).take
    maxRecords

/-- Timestamp of the last record of a page (only used on nonempty pages). -/
def pageLastTimestamp (page : List SwapData) : ℕ :=
  match page.getLast? with
  | some s => s.timestamp
  | none => 0

/-- Cursor-pagination loop for swaps in `fetchHistoricalDataWithTheGraph`:
request a page at the cursor; a failed request (after retries) stops the
loop keeping what was accumulated; an empty page stops; a short page stops
after appending; otherwise the cursor advances to the last record's
timestamp, bumped by one second when it did not move.  The source loop is
`while (fetchMoreSwaps)`; fuel makes the recursion total. -/
def fetchSwapsLoop (request : ℕ → Except String (List SwapData)) (maxRecords : ℕ) :
    ℕ → ℕ → List SwapData → List SwapData
  | 0, _, acc => acc
  | fuel + 1, cursor, acc =>
      match request cursor with
      | .error _ => acc
      | .ok page =>
          if page = [] then acc
          else
            let acc2 := acc ++ page
            let newLast := pageLastTimestamp page
            if page.length < maxRecords then acc2
            else
              let cursor2 := if newLast = cursor then newLast + 1 else newLast
              fetchSwapsLoop request maxRecords fuel cursor2 acc2

/-- Swap ingestion: run the cursor loop from the start timestamp with an
empty accumulator. -/
def fetchSwaps (request : ℕ → Except String (List SwapData))
    (startTimestamp maxRecords fuel : ℕ) : List SwapData :=
  fetchSwapsLoop request maxRecords fuel startTimestamp []

/-- Retry loop of `makeGraphQLRequest`: attempt `oracle i` for i from 0
while i < maxRetries; a success returns immediately; the failure of the
last allowed attempt is rethrown; the final error corresponds to the throw
after the source loop (reached only when maxRetries = 0). -/
def retryGo {α : Type} (oracle : ℕ → Except String α) (maxRetries : ℕ) :
    ℕ → ℕ → Except String α
  | 0, _ => .error ("Failed to execute query after retries")
  | fuel + 1, i =>
      match oracle i with
      | .ok v => .ok v
      | .error e => if i = maxRetries - 1 then .error e else retryGo oracle maxRetries fuel (i + 1)

/-- Bounded-retry wrapper around a page request, modelling the attempt
outcomes as an oracle indexed by attempt number. -/
def makeGraphQLRequest {α : Type} (oracle : ℕ → Except String α) (maxRetries : ℕ) :
    Except String α :=
  retryGo oracle maxRetries maxRetries 0

/-- Three-trade source used by the pagination scenario of claim C1. -/
def swapsDb3 : List SwapData :=
  [{ id := "a", timestamp := 10, sqrtPriceX96 := 0 },
   { id := "b", timestamp := 20, sqrtPriceX96 := 0 },
   { id := "c", timestamp := 30, sqrtPriceX96 := 0 }]

/-- Claim C1 (failing evaluation): with three trades at seconds 10, 20, 30
and page size 2, cursor ingestion re-requests with timestamp >= the last
record's timestamp, so the boundary records at 20 and 30 are fetched twice:
the result is five records [10, 20, 20, 30, 30], not the claimed three
distinct events. -/
theorem fetchSwaps_duplicates_page_boundary :
    (fetchSwaps
        (fun cursor => makeGraphQLRequest (fun _ => .ok (graphSwapPage swapsDb3 100 2 cursor)) 3)
        10 2 10).map (fun s => s.timestamp) = [10, 20, 20, 30, 30] ∧
    (fetchSwaps
        (fun cursor => makeGraphQLRequest (fun _ => .ok (graphSwapPage swapsDb3 100 2 cursor)) 3)
        10 2 10).map (fun s => s.timestamp) ≠ [10, 20, 30] := by
  constructor <;> decide

/-- Success before exhaustion: if every attempt before `j` fails and
attempt `j` succeeds with `v`, the retry wrapper returns `v`. -/
theorem retryGo_first_success {α : Type} (oracle : ℕ → Except String α) (n j : ℕ) (v : α) :
    ∀ (fuel i : ℕ), i + fuel = n → i ≤ j → j < n →
      (∀ m, m < j → (oracle m).isOk = false) → oracle j = .ok v →
      retryGo oracle n fuel i = .ok v := by
  intro fuel
  induction fuel with
  | zero => intro i h hij hjn _ _; omega
  | succ k ih =>
      intro i h hij hjn hfail hok
      by_cases hi : i = j
      · subst hi
        simp [retryGo, hok]
      · have hlt : i < j := lt_of_le_of_ne hij hi
        have hf := hfail i hlt
        cases hoi : oracle i with
        | ok w => rw [hoi] at hf; simp [Except.isOk, Except.toBool] at hf
        | error e =>
            have hne : i ≠ n - 1 := by omega
            simp only [retryGo, hoi, if_neg hne]
            exact ih (i + 1) (by omega) (by omega) hjn hfail hok

/-- Exhaustion: if every allowed attempt fails, the retry wrapper returns
the outcome (the error) of the last attempt. -/
theorem retryGo_exhausted {α : Type} (oracle : ℕ → Except String α) (n : ℕ) :
    ∀ (fuel i : ℕ), i + fuel = n → i < n →
      (∀ m, m < n → (oracle m).isOk = false) →
      retryGo oracle n fuel i = oracle (n - 1) := by
  intro fuel
  induction fuel with
  | zero => intro i h hin _; omega
  | succ k ih =>
      intro i h hin hfail
      have hf := hfail i hin
      cases hoi : oracle i with
      | ok w => rw [hoi] at hf; simp [Except.isOk, Except.toBool] at hf
      | error e =>
          by_cases hi : i = n - 1
          · simp only [retryGo, hoi, if_pos hi]
            rw [← hi, hoi]
          · simp only [retryGo, hoi, if_neg hi]
            exact ih (i + 1) (by omega) (by omega) hfail

/-- Claim C8: page requests are retried on failure up to the configured
attempt bound (first success is returned; after exhausting all attempts the
last attempt's error is surfaced to the caller), and when a page request
fails after retries the ingestion loop stops and returns the events
accumulated so far rather than crashing. -/
theorem ingestion_bounded_retry_partial_result :
    (∀ (α : Type) (oracle : ℕ → Except String α) (n j : ℕ) (v : α),
        j < n → (∀ m, m < j → (oracle m).isOk = false) → oracle j = .ok v →
        makeGraphQLRequest oracle n = .ok v) ∧
    (∀ (α : Type) (oracle : ℕ → Except String α) (n : ℕ),
        0 < n → (∀ m, m < n → (oracle m).isOk = false) →
        makeGraphQLRequest oracle n = oracle (n - 1)) ∧
    (∀ (request : ℕ → Except String (List SwapData)) (maxRecords fuel cursor : ℕ)
        (acc : List SwapData) (e : String),
        0 < fuel → request cursor = .error e →
        fetchSwapsLoop request maxRecords fuel cursor acc = acc) := by
  refine ⟨?_, ?_, ?_⟩
  · intro α oracle n j v hjn hfail hok
    exact retryGo_first_success oracle n j v n 0 (by omega) (by omega) hjn hfail hok
  · intro α oracle n hn hfail
    exact retryGo_exhausted oracle n n 0 (by omega) hn hfail
  · intro request maxRecords fuel cursor acc e hfuel herr
    cases fuel with
    | zero => omega
    | succ k => simp [fetchSwapsLoop, herr]

/-- Failure oracle used by the C8 witness. -/
def oracleFailAll : ℕ → Except String ℕ := fun _ => .error ("boom")

/-- Oracle failing once then succeeding, used by the C8 witness. -/
def oracleSecondTry : ℕ → Except String ℕ := fun i => if i = 0 then .error ("flaky") else .ok 42

/-- Request that always fails (after retries), used by the C8 witness. -/
def requestDown : ℕ → Except String (List SwapData) := fun _ => .error ("down")

/-- Witness for claim C8 at concrete inputs: a success on the second of
three attempts is returned, exhausting three failing attempts surfaces the
last error, and a failed page request aborts ingestion keeping the already
accumulated records. -/
theorem ingestion_bounded_retry_partial_result_witness :
    makeGraphQLRequest oracleSecondTry 3 = .ok 42 ∧
    makeGraphQLRequest oracleFailAll 3 = .error ("boom") ∧
    fetchSwapsLoop requestDown 2 5 10 swapsDb3 = swapsDb3 :=
  ⟨ingestion_bounded_retry_partial_result.1 ℕ oracleSecondTry 3 1 42 (by decide)
      (by decide) rfl,
   (ingestion_bounded_retry_partial_result.2.1 ℕ oracleFailAll 3 (by decide) (by decide)).trans
      rfl,
   ingestion_bounded_retry_partial_result.2.2 requestDown 2 5 10 swapsDb3 "down" (by decide) rfl⟩

/-- Nonnegativity of a ledger state: total and every per-tick accumulator. -/
def NonnegLedger (st : LedgerState) : Prop :=
  0 ≤ st.total ∧ ∀ t : ℤ, 0 ≤ st.tickLiquidity t

theorem nonnegLedger_ledger0 : NonnegLedger ledger0 :=
  ⟨le_refl 0, fun _ => le_refl 0⟩

theorem nonnegLedger_applyMint (st : LedgerState) (m : MintData) (h : NonnegLedger st) :
    NonnegLedger (applyMint st m) := by
  refine ⟨add_nonneg h.1 (Int.natCast_nonneg _), fun t => ?_⟩
  simp only [applyMint]
  split
  · exact add_nonneg (h.2 t) (Int.natCast_nonneg _)
  · exact h.2 t

theorem nonnegLedger_applyBurn (st : LedgerState) (b : BurnData) (h : NonnegLedger st) :
    NonnegLedger (applyBurn st b) := by
  refine ⟨le_max_left _ _, fun t => ?_⟩
  simp only [applyBurn]
  split
  · exact le_max_left _ _
  · exact h.2 t

theorem nonnegLedger_applyEvent (st : LedgerState) (e : MintData ⊕ BurnData)
    (h : NonnegLedger st) : NonnegLedger (applyEvent st e) := by
  cases e with
  | inl m => exact nonnegLedger_applyMint st m h
  | inr b => exact nonnegLedger_applyBurn st b h

theorem nonnegLedger_foldl_mints (mints : List MintData) :
    ∀ st : LedgerState, NonnegLedger st → NonnegLedger (mints.foldl applyMint st) := by
  induction mints with
  | nil => intro st h; exact h
  | cons m rest ih => intro st h; exact ih _ (nonnegLedger_applyMint st m h)

theorem nonnegLedger_foldl_burns (burns : List BurnData) :
    ∀ st : LedgerState, NonnegLedger st → NonnegLedger (burns.foldl applyBurn st) := by
  induction burns with
  | nil => intro st h; exact h
  | cons b rest ih => intro st h; exact ih _ (nonnegLedger_applyBurn st b h)

theorem nonnegLedger_foldl_events (evs : List (MintData ⊕ BurnData)) :
    ∀ st : LedgerState, NonnegLedger st → NonnegLedger (evs.foldl applyEvent st) := by
  induction evs with
  | nil => intro st h; exact h
  | cons e rest ih => intro st h; exact ih _ (nonnegLedger_applyEvent st e h)

/-- Claim C7: a withdraw sets the total to max(0, total - amount) and every
per-tick accumulator in [lowerTick, upperTick) to max(0, accumulator - amount);
consequently after replaying any event sequence the total and every per-tick
accumulator are non-negative. -/
theorem applyWithdraw_clamps_and_ledger_nonneg :
    (∀ (st : LedgerState) (b : BurnData),
        (applyBurn st b).total = max 0 (st.total - (b.amount : ℤ)) ∧
        ∀ t : ℤ, b.tickLower ≤ t → t < b.tickUpper →
          (applyBurn st b).tickLiquidity t = max 0 (st.tickLiquidity t - (b.amount : ℤ))) ∧
    (∀ evs : List (MintData ⊕ BurnData),
        0 ≤ (replayLedger evs).total ∧ ∀ t : ℤ, 0 ≤ (replayLedger evs).tickLiquidity t) := by
  constructor
  · intro st b
    refine ⟨rfl, fun t h1 h2 => ?_⟩
    simp only [applyBurn]
    rw [if_pos ⟨h1, h2⟩]
  · intro evs
    exact nonnegLedger_foldl_events evs ledger0 nonnegLedger_ledger0

/-- Burn used by the C7 witness. -/
def burnW : BurnData := { timestamp := 0, amount := 3, tickLower := 0, tickUpper := 1 }

/-- Witness for claim C7 at concrete inputs: tick 0 lies in the burn range
[0, 1), its accumulator is clamped, and a replayed sequence stays
non-negative. -/
theorem applyWithdraw_clamps_and_ledger_nonneg_witness :
    (applyBurn ledger0 burnW).total = max 0 (ledger0.total - (burnW.amount : ℤ)) ∧
    (applyBurn ledger0 burnW).tickLiquidity 0 =
      max 0 (ledger0.tickLiquidity 0 - (burnW.amount : ℤ)) ∧
    0 ≤ (replayLedger [Sum.inr burnW]).total :=
  ⟨(applyWithdraw_clamps_and_ledger_nonneg.1 ledger0 burnW).1,
   (applyWithdraw_clamps_and_ledger_nonneg.1 ledger0 burnW).2 0 (by decide) (by decide),
   (applyWithdraw_clamps_and_ledger_nonneg.2 [Sum.inr burnW]).1⟩

/-- Lower tick of a deposit-or-withdraw event. -/
def eventLower : MintData ⊕ BurnData → ℤ
  | .inl m => m.tickLower
  | .inr b => b.tickLower

/-- Upper tick of a deposit-or-withdraw event. -/
def eventUpper : MintData ⊕ BurnData → ℤ
  | .inl m => m.tickUpper
  | .inr b => b.tickUpper

theorem sum_indicator_Ico (L U l u a : ℤ) (hL : L ≤ l) (hU : u ≤ U) (hlu : l ≤ u) :
    (∑ t ∈ Finset.Ico L U, if l ≤ t ∧ t < u then a else 0) = a * (u - l) := by
  have hsub : Finset.Ico l u ⊆ Finset.Ico L U := Finset.Ico_subset_Ico hL hU
  calc (∑ t ∈ Finset.Ico L U, if l ≤ t ∧ t < u then a else 0)
      = ∑ t ∈ Finset.Ico L U, (if t ∈ Finset.Ico l u then a else 0) := by
        refine Finset.sum_congr rfl fun t _ => ?_
        simp [Finset.mem_Ico]
    _ = ∑ t ∈ Finset.Ico L U ∩ Finset.Ico l u, a := Finset.sum_ite_mem _ _ _
    _ = (Finset.Ico l u).card • a := by
        rw [Finset.inter_eq_right.mpr hsub, Finset.sum_const]
    _ = a * (u - l) := by
        rw [Int.card_Ico, nsmul_eq_mul, Int.toNat_of_nonneg (by omega)]
        ring

theorem mint_step_sum (st : LedgerState) (m : MintData) (L U : ℤ)
    (hL : L ≤ m.tickLower) (hU : m.tickUpper ≤ U) (hlu : m.tickLower ≤ m.tickUpper) :
    (∑ t ∈ Finset.Ico L U, (applyMint st m).tickLiquidity t) =
      (∑ t ∈ Finset.Ico L U, st.tickLiquidity t) +
        (m.amount : ℤ) * (m.tickUpper - m.tickLower) := by
  have hpt : ∀ t : ℤ, (applyMint st m).tickLiquidity t =
      st.tickLiquidity t + (if m.tickLower ≤ t ∧ t < m.tickUpper then (m.amount : ℤ) else 0) := by
    intro t
    simp only [applyMint]
    split <;> simp
  calc (∑ t ∈ Finset.Ico L U, (applyMint st m).tickLiquidity t)
      = ∑ t ∈ Finset.Ico L U,
          (st.tickLiquidity t +
            (if m.tickLower ≤ t ∧ t < m.tickUpper then (m.amount : ℤ) else 0)) :=
        Finset.sum_congr rfl fun t _ => hpt t
    _ = (∑ t ∈ Finset.Ico L U, st.tickLiquidity t) +
          ∑ t ∈ Finset.Ico L U,
            (if m.tickLower ≤ t ∧ t < m.tickUpper then (m.amount : ℤ) else 0) :=
        Finset.sum_add_distrib
    _ = (∑ t ∈ Finset.Ico L U, st.tickLiquidity t) +
          (m.amount : ℤ) * (m.tickUpper - m.tickLower) := by
        rw [sum_indicator_Ico _ _ _ _ _ hL hU hlu]

theorem burn_step_sum (st : LedgerState) (b : BurnData) (L U : ℤ)
    (hL : L ≤ b.tickLower) (hU : b.tickUpper ≤ U) (hlu : b.tickLower ≤ b.tickUpper)
    (hclamp : ∀ t ∈ Finset.Ico b.tickLower b.tickUpper, (b.amount : ℤ) ≤ st.tickLiquidity t) :
    (∑ t ∈ Finset.Ico L U, (applyBurn st b).tickLiquidity t) =
      (∑ t ∈ Finset.Ico L U, st.tickLiquidity t) -
        (b.amount : ℤ) * (b.tickUpper - b.tickLower) := by
  have hpt : ∀ t : ℤ, (applyBurn st b).tickLiquidity t =
      st.tickLiquidity t - (if b.tickLower ≤ t ∧ t < b.tickUpper then (b.amount : ℤ) else 0) := by
    intro t
    simp only [applyBurn]
    split
    · next h =>
        rw [max_eq_right (sub_nonneg.mpr (hclamp t (Finset.mem_Ico.mpr h)))]
    · simp
  calc (∑ t ∈ Finset.Ico L U, (applyBurn st b).tickLiquidity t)
      = ∑ t ∈ Finset.Ico L U,
          (st.tickLiquidity t -
            (if b.tickLower ≤ t ∧ t < b.tickUpper then (b.amount : ℤ) else 0)) :=
        Finset.sum_congr rfl fun t _ => hpt t
    _ = (∑ t ∈ Finset.Ico L U, st.tickLiquidity t) -
          ∑ t ∈ Finset.Ico L U,
            (if b.tickLower ≤ t ∧ t < b.tickUpper then (b.amount : ℤ) else 0) :=
        Finset.sum_sub_distrib
    _ = (∑ t ∈ Finset.Ico L U, st.tickLiquidity t) -
          (b.amount : ℤ) * (b.tickUpper - b.tickLower) := by
        rw [sum_indicator_Ico _ _ _ _ _ hL hU hlu]

theorem replay_conservation (L U : ℤ) :
    ∀ (evs : List (MintData ⊕ BurnData)) (st : LedgerState),
      clampFree st evs = true →
      (∀ e ∈ evs, L ≤ eventLower e ∧ eventUpper e ≤ U ∧ eventLower e < eventUpper e) →
      (evs.foldl applyEvent st).total = st.total + depositSum evs - withdrawSum evs ∧
      (∑ t ∈ Finset.Ico L U, (evs.foldl applyEvent st).tickLiquidity t) =
        (∑ t ∈ Finset.Ico L U, st.tickLiquidity t) + signedAreaSum evs := by
  intro evs
  induction evs with
  | nil =>
      intro st _ _
      simp [depositSum, withdrawSum, signedAreaSum]
  | cons e rest ih =>
      intro st hcf hbounds
      simp only [clampFree, Bool.and_eq_true] at hcf
      obtain ⟨hhead, htail⟩ := hcf
      have hb := hbounds e (List.mem_cons_self _ _)
      have hrest : ∀ e' ∈ rest, L ≤ eventLower e' ∧ eventUpper e' ≤ U ∧
          eventLower e' < eventUpper e' :=
        fun e' he' => hbounds e' (List.mem_cons_of_mem _ he')
      obtain ⟨ih1, ih2⟩ := ih (applyEvent st e) htail hrest
      cases e with
      | inl m =>
          obtain ⟨hbL, hbU, hblu⟩ := hb
          simp only [eventLower, eventUpper] at hbL hbU hblu
          constructor
          · simp only [List.foldl_cons] at ih1 ⊢
            rw [ih1]
            simp only [applyEvent, applyMint, depositSum, withdrawSum, List.map_cons,
              List.sum_cons]
            simp only [depositSum, withdrawSum] at *
            ring
          · simp only [List.foldl_cons] at ih2 ⊢
            rw [ih2]
            have := mint_step_sum st m L U hbL hbU (le_of_lt hblu)
            simp only [applyEvent]
            rw [this]
            simp only [signedAreaSum, List.map_cons, List.sum_cons]
            ring
      | inr b =>
          obtain ⟨hbL, hbU, hblu⟩ := hb
          simp only [eventLower, eventUpper] at hbL hbU hblu
          have hhead2 := of_decide_eq_true hhead
          obtain ⟨hba, hclamp⟩ := hhead2
          constructor
          · simp only [List.foldl_cons] at ih1 ⊢
            rw [ih1]
            simp only [applyEvent, applyBurn]
            rw [max_eq_right (sub_nonneg.mpr hba)]
            simp only [depositSum, withdrawSum, List.map_cons, List.sum_cons]
            ring
          · simp only [List.foldl_cons] at ih2 ⊢
            rw [ih2]
            have := burn_step_sum st b L U hbL hbU (le_of_lt hblu) hclamp
            simp only [applyEvent]
            rw [this]
            simp only [signedAreaSum, List.map_cons, List.sum_cons]
            ring

/-- Deposit of liquidity 500 over ticks [100, 200), used by the C3 scenario. -/
def depositScenario : MintData := { timestamp := 0, amount := 500, tickLower := 100, tickUpper := 200 }

/-- Withdraw of liquidity 500 over ticks [100, 200), used by the C3 scenario. -/
def withdrawScenario : BurnData := { timestamp := 1, amount := 500, tickLower := 100, tickUpper := 200 }

/-- Scenario event list: the deposit followed by the withdraw. -/
def scenarioEvents : List (MintData ⊕ BurnData) :=
  [Sum.inl depositScenario, Sum.inr withdrawScenario]

/-- Claim C3: replaying any timestamp-ordered event sequence without
clamping gives total = sum of deposits - sum of withdraws, and the sum of
the per-tick accumulators over any tick interval covering all event ranges
equals the signed sum of amount * (upperTick - lowerTick); in particular a
deposit of 500 over [100, 200) followed by a withdraw of 500 over
[100, 200) returns the total and every per-tick accumulator in [100, 200)
to 0. -/
theorem ledger_conservation :
    (∀ (evs : List (MintData ⊕ BurnData)) (L U : ℤ),
        List.Chain' (fun a b => eventTimestamp a ≤ eventTimestamp b) evs →
        clampFree ledger0 evs = true →
        (∀ e ∈ evs, L ≤ eventLower e ∧ eventUpper e ≤ U ∧ eventLower e < eventUpper e) →
        (replayLedger evs).total = depositSum evs - withdrawSum evs ∧
        (∑ t ∈ Finset.Ico L U, (replayLedger evs).tickLiquidity t) = signedAreaSum evs) ∧
    ((replayLedger scenarioEvents).total = 0 ∧
      ∀ t ∈ Finset.Ico (100 : ℤ) 200, (replayLedger scenarioEvents).tickLiquidity t = 0) := by
  constructor
  · intro evs L U _horder hcf hbounds
    obtain ⟨h1, h2⟩ := replay_conservation L U evs ledger0 hcf hbounds
    refine ⟨?_, ?_⟩
    · rw [replayLedger, h1]; simp [ledger0]
    · rw [replayLedger, h2]; simp [ledger0]
  · constructor
    · decide
    · decide

/-- Witness for claim C3: the scenario events are timestamp-ordered,
clamp-free, cover tick interval [100, 200), and the theorem applied to them
gives total = 500 - 500. -/
theorem ledger_conservation_witness :
    List.Chain' (fun a b => eventTimestamp a ≤ eventTimestamp b) scenarioEvents ∧
    clampFree ledger0 scenarioEvents = true ∧
    (replayLedger scenarioEvents).total = depositSum scenarioEvents - withdrawSum scenarioEvents :=
  ⟨by
      simp only [scenarioEvents]
      rw [List.chain'_cons]
      exact ⟨by decide, List.chain'_singleton _⟩,
   by decide,
   (ledger_conservation.1 scenarioEvents 100 200
      (by
        simp only [scenarioEvents]
        rw [List.chain'_cons]
        exact ⟨by decide, List.chain'_singleton _⟩)
      (by decide)
      (by intro e he; fin_cases he <;> decide)).1⟩

theorem log_one_add_bounds (u : ℝ) (h0 : 0 < u) (h1 : u < 1) :
    u - u ^ 2 / 2 - u ^ 3 / (1 - u) ≤ Real.log (1 + u) ∧
      Real.log (1 + u) ≤ u - u ^ 2 / 2 + u ^ 3 / (1 - u) := by
  have hx : |(-u)| < 1 := by rw [abs_neg, abs_of_pos h0]; exact h1
  have h := Real.abs_log_sub_add_sum_range_le hx 2
  rw [abs_neg, abs_of_pos h0] at h
  have hsum : (∑ i ∈ Finset.range 2, (-u) ^ (i + 1) / (i + 1)) = -u + u ^ 2 / 2 := by
    simp [Finset.sum_range_succ]
    ring
  rw [hsum, sub_neg_eq_add] at h
  rw [abs_le] at h
  constructor <;> linarith [h.1, h.2]

theorem key_log_base_ineq :
    (100000.5 : ℝ) * Real.log 1.0001 ≤ 200000 * Real.log 1.00005 := by
  have h1 := log_one_add_bounds (1 / 20000 : ℝ) (by norm_num) (by norm_num)
  have h2 := log_one_add_bounds (1 / 10000 : ℝ) (by norm_num) (by norm_num)
  have e1 : (1 : ℝ) + 1 / 20000 = 1.00005 := by norm_num
  have e2 : (1 : ℝ) + 1 / 10000 = 1.0001 := by norm_num
  rw [e1] at h1
  rw [e2] at h2
  have hA1 : ((1 : ℝ) / 20000 - (1 / 20000) ^ 2 / 2 - (1 / 20000) ^ 3 / (1 - 1 / 20000)) ≤
      Real.log 1.00005 := h1.1
  have hA2 : Real.log 1.0001 ≤
      ((1 : ℝ) / 10000 - (1 / 10000) ^ 2 / 2 + (1 / 10000) ^ 3 / (1 - 1 / 10000)) := h2.2
  nlinarith [hA1, hA2]

/-- Claim C5 (counterexample): at price 1.00005^100000 with equal decimals
and spacing 1, the source (log base 1.00005) rounds to tick 100000 while
the claimed formula (log base sqrt(1.0001)) rounds to at least 100001. -/
theorem priceToTick_log_base_counterexample :
    priceToTick ((1.00005 : ℚ) ^ 100000) 0 0 1 ≠
      priceToTickSpecFormula ((1.00005 : ℚ) ^ 100000) 0 0 1 := by
  have hcast : (((1.00005 : ℚ) ^ 100000 : ℚ) : ℝ) = (1.00005 : ℝ) ^ 100000 := by
    push_cast
    norm_num
  have hlogc_pos : (0 : ℝ) < Real.log 1.00005 := Real.log_pos (by norm_num)
  have hlogb_pos : (0 : ℝ) < Real.log 1.0001 := Real.log_pos (by norm_num)
  have hlog : Real.log ((1.00005 : ℝ) ^ 100000) = 100000 * Real.log 1.00005 := by
    rw [Real.log_pow]
    norm_num
  have hL : priceToTick ((1.00005 : ℚ) ^ 100000) 0 0 1 = 100000 := by
    simp only [priceToTick, hcast, Nat.cast_zero, Nat.cast_one, sub_self, zpow_zero, mul_one,
      div_one, hlog]
    rw [mul_div_assoc, div_self (ne_of_gt hlogc_pos), mul_one]
    have : ((100000 : ℕ) : ℝ) = ((100000 : ℤ) : ℝ) := by norm_num
    norm_num [round_natCast]
  have hR : (100001 : ℤ) ≤ priceToTickSpecFormula ((1.00005 : ℚ) ^ 100000) 0 0 1 := by
    simp only [priceToTickSpecFormula, hcast, Nat.cast_zero, Nat.cast_one, sub_self, zpow_zero,
      mul_one, div_one, hlog]
    rw [Real.log_sqrt (by norm_num)]
    have hx : (100000.5 : ℝ) ≤ 100000 * Real.log 1.00005 / (Real.log 1.0001 / 2) := by
      rw [le_div_iff₀ (by positivity)]
      linarith [key_log_base_ineq]
    rw [round_eq]
    have h1 : ((100001 : ℤ) : ℝ) ≤ 100000 * Real.log 1.00005 / (Real.log 1.0001 / 2) + 1 / 2 := by
      push_cast
      linarith [hx]
    exact Int.le_floor.mpr h1
  omega

/-- Claim C5 (amended): for every positive price and positive spacing, the
tick is round(log(effectivePrice) / log(1.00005) / spacing) * spacing with
effectivePrice = price * 10^(decimals1 - decimals0); the source's constant
1.00005 approximates, but is not equal to, sqrt(1.0001). -/
theorem priceToTick_formula (price : ℚ) (d0 d1 sp : ℕ)
    (hp : 0 < price) (hsp : 0 < sp) :
    priceToTick price d0 d1 sp =
      round ((Real.log ((price : ℝ) * 10 ^ ((d1 : ℤ) - (d0 : ℤ))) / Real.log 1.00005) /
        (sp : ℝ)) * sp := rfl

/-- Witness for the amended claim C5 at price 1 with spacing 1. -/
theorem priceToTick_formula_witness :
    (0 : ℚ) < 1 ∧ (0 : ℕ) < 1 ∧
      priceToTick 1 0 0 1 =
        round ((Real.log ((1 : ℚ) * 10 ^ ((0 : ℤ) - (0 : ℤ))) / Real.log 1.00005) /
          ((1 : ℕ) : ℝ)) * (1 : ℕ) :=
  ⟨by norm_num, by norm_num, priceToTick_formula 1 0 0 1 (by norm_num) (by norm_num)⟩

theorem calcLMGo_map_timestamp (d0 d1 sp w : ℕ) :
    ∀ (ohlc : List OHLCData) (st : LedgerState) (mints : List MintData) (burns : List BurnData),
      (calcLMGo d0 d1 sp w ohlc st mints burns).map (fun mtr => mtr.timestamp) =
        ohlc.map (fun r => r.timestamp) := by
  intro ohlc
  induction ohlc with
  | nil => intro st mints burns; rfl
  | cons r rest ih =>
      intro st mints burns
      simp only [calcLMGo, List.map_cons]
      rw [ih]

/-- Claim C9: the liquidity-metric series has exactly one record per OHLC
record, in order, and each metric carries its OHLC record's timestamp, so
the fatal length-mismatch branch and the timestamp-mismatch warning branch
of the final combining step can never fire on these outputs. -/
theorem liquidity_metrics_align_with_ohlc (ohlc : List OHLCData) (mints : List MintData)
    (burns : List BurnData) (d0 d1 sp w : ℕ) :
    (calculateLiquidityMetrics ohlc mints burns d0 d1 sp w).length = ohlc.length ∧
    (calculateLiquidityMetrics ohlc mints burns d0 d1 sp w).map (fun mtr => mtr.timestamp) =
      ohlc.map (fun r => r.timestamp) := by
  have hmap := calcLMGo_map_timestamp d0 d1 sp w ohlc ledger0
    (mints.mergeSort (fun a b => decide (a.timestamp ≤ b.timestamp)))
    (burns.mergeSort (fun a b => decide (a.timestamp ≤ b.timestamp)))
  constructor
  · have hlen := congrArg List.length hmap
    simpa [calculateLiquidityMetrics] using hlen
  · simpa [calculateLiquidityMetrics] using hmap

theorem calcLMGo_ratio_nonneg (d0 d1 sp w : ℕ) :
    ∀ (ohlc : List OHLCData) (st : LedgerState) (mints : List MintData) (burns : List BurnData),
      NonnegLedger st →
      ∀ mtr ∈ calcLMGo d0 d1 sp w ohlc st mints burns, 0 ≤ mtr.ratio := by
  intro ohlc
  induction ohlc with
  | nil =>
      intro st mints burns _ mtr hm
      simp [calcLMGo] at hm
  | cons r rest ih =>
      intro st mints burns hst mtr hm
      have hst2 : NonnegLedger
          ((burns.takeWhile (fun b => decide (b.timestamp < r.timestamp + w))).foldl applyBurn
            ((mints.takeWhile (fun m => decide (m.timestamp < r.timestamp + w))).foldl
              applyMint st)) :=
        nonnegLedger_foldl_burns _ _ (nonnegLedger_foldl_mints _ _ hst)
      simp only [calcLMGo, List.mem_cons] at hm
      rcases hm with rfl | hm
      · simp only
        split
        · exact le_refl 0
        · have hactive : (0 : ℤ) ≤
              ∑ t ∈ Finset.Ico
                  (min (priceToTick r.low d0 d1 sp) (priceToTick r.high d0 d1 sp))
                  (max (priceToTick r.low d0 d1 sp) (priceToTick r.high d0 d1 sp)),
                ((burns.takeWhile (fun b => decide (b.timestamp < r.timestamp + w))).foldl
                  applyBurn
                  ((mints.takeWhile (fun m => decide (m.timestamp < r.timestamp + w))).foldl
                    applyMint st)).tickLiquidity t :=
            Finset.sum_nonneg fun t _ => hst2.2 t
          have hdiv : (0 : ℤ) ≤ _ * 10 ^ 18 / _ :=
            Int.ediv_nonneg (mul_nonneg hactive (by positivity)) hst2.1
          exact div_nonneg (by exact_mod_cast hdiv) (by positivity)
      · exact ih _ _ _ hst2 mtr hm

/-- Claim C2 (amended part): every emitted liquidity ratio is non-negative
(the list is read through `getD` with a zero default so the statement needs
no index bound). -/
theorem liquidity_ratio_nonneg (ohlc : List OHLCData) (mints : List MintData)
    (burns : List BurnData) (d0 d1 sp w i : ℕ) :
    0 ≤ ((calculateLiquidityMetrics ohlc mints burns d0 d1 sp w).getD i
      { timestamp := 0, activeLiquidityInRange := 0, totalLiquidityInPool := 0,
        ratio := 0 }).ratio := by
  rcases lt_or_ge i (calculateLiquidityMetrics ohlc mints burns d0 d1 sp w).length with h | h
  · rw [List.getD_eq_getElem _ _ h]
    refine calcLMGo_ratio_nonneg d0 d1 sp w ohlc ledger0
      (mints.mergeSort (fun a b => decide (a.timestamp ≤ b.timestamp)))
      (burns.mergeSort (fun a b => decide (a.timestamp ≤ b.timestamp)))
      nonnegLedger_ledger0 _ ?_
    have := List.getElem_mem h
    simpa [calculateLiquidityMetrics] using this
  · rw [List.getD_eq_default _ _ h]

theorem priceToTick_one : priceToTick 1 0 0 1 = 0 := by
  simp only [priceToTick]
  norm_num [Real.log_one]

theorem priceToTick_pow_base (n : ℕ) : priceToTick ((1.00005 : ℚ) ^ n) 0 0 1 = (n : ℤ) := by
  have hcast : (((1.00005 : ℚ) ^ n : ℚ) : ℝ) = (1.00005 : ℝ) ^ n := by
    push_cast
    norm_num
  have hlogc_pos : (0 : ℝ) < Real.log 1.00005 := Real.log_pos (by norm_num)
  simp only [priceToTick, hcast, Nat.cast_zero, Nat.cast_one, sub_self, zpow_zero, mul_one,
    div_one, Real.log_pow]
  rw [mul_div_assoc, div_self (ne_of_gt hlogc_pos), mul_one]
  norm_num [round_natCast]

/-- OHLC record with low price 1 (tick 0) and high price 1.00005^3 (tick 3),
used by the C2 counterexample. -/
def recC2 : OHLCData :=
  { timestamp := 0, «open» := 1, high := (1.00005 : ℚ) ^ 3, low := 1, close := 1 }

/-- Mint of liquidity 5 over ticks [0, 10), used by the C2 counterexample. -/
def mintC2 : MintData := { timestamp := 0, amount := 5, tickLower := 0, tickUpper := 10 }

theorem priceToTick_pow_three : priceToTick ((1.00005 : ℚ) ^ 3) 0 0 1 = 3 := by
  have h := priceToTick_pow_base 3
  simp at h
  exact h

theorem calcLM_high_ratio_eval :
    calculateLiquidityMetrics [recC2] [mintC2] [] 0 0 1 3600 =
      [{ timestamp := 0, activeLiquidityInRange := 15, totalLiquidityInPool := 5,
         ratio := 3 }] := by
  simp only [calculateLiquidityMetrics, List.mergeSort_nil, List.mergeSort_singleton, calcLMGo,
    recC2, mintC2]
  rw [priceToTick_one, priceToTick_pow_three]
  norm_num
  have hsum : (∑ x ∈ Finset.Ico (0 : ℤ) 3,
      (applyMint ledger0
        { timestamp := 0, amount := 5, tickLower := 0, tickUpper := 10 }).tickLiquidity x) =
      15 := by decide
  have htot : (applyMint ledger0
      { timestamp := 0, amount := 5, tickLower := 0, tickUpper := 10 }).total = 5 := by decide
  rw [hsum, htot]
  norm_num

/-- Claim C2 (counterexample): a replay with one mint (liquidity 5 over ten
ticks), no burns (hence no clamping), and one OHLC bucket whose price range
spans ticks [0, 3) yields ratio 3, violating ratio <= 1. -/
theorem liquidity_ratio_exceeds_one :
    (calculateLiquidityMetrics [recC2] [mintC2] [] 0 0 1 3600).map (fun mtr => mtr.ratio) =
      [3] ∧ ¬ ((3 : ℚ) ≤ 1) := by
  constructor
  · rw [calcLM_high_ratio_eval]
    rfl
  · norm_num

theorem bucketStart_le (w ts : ℕ) : bucketStart w ts ≤ ts := Nat.div_mul_le_self _ _

theorem lt_bucketStart_add (w ts : ℕ) (hw : 0 < w) : ts < bucketStart w ts + w := by
  rw [bucketStart]
  have h1 := Nat.div_add_mod ts w
  rw [Nat.mul_comm] at h1
  have h2 := Nat.mod_lt ts hw
  omega

theorem bucketStart_mono (w : ℕ) {a b : ℕ} (h : a ≤ b) : bucketStart w a ≤ bucketStart w b :=
  Nat.mul_le_mul_right _ (Nat.div_le_div_right h)

theorem bucketStart_eq_of_mem_bucket (w t0 x : ℕ) (hw : 0 < w)
    (h1 : bucketStart w t0 ≤ x) (h2 : x < bucketStart w t0 + w) :
    bucketStart w x = bucketStart w t0 := by
  have hdiv : x / w = t0 / w := by
    refine Nat.div_eq_of_lt_le ?_ ?_
    · exact h1
    · rw [Nat.succ_mul]
      exact h2
  rw [bucketStart, bucketStart, hdiv]

theorem bucketStart_lt_of_ge (w t0 x : ℕ) (hw : 0 < w) (h : bucketStart w t0 + w ≤ x) :
    bucketStart w t0 < bucketStart w x := by
  have h1 : (t0 / w + 1) * w ≤ x := by
    rw [Nat.add_mul, one_mul]
    rw [bucketStart] at h
    exact h
  have h2 : t0 / w + 1 ≤ x / w := (Nat.le_div_iff_mul_le hw).mpr h1
  rw [bucketStart, bucketStart]
  calc t0 / w * w < (t0 / w + 1) * w := by
        rw [Nat.add_mul, one_mul]
        omega
    _ ≤ x / w * w := Nat.mul_le_mul_right _ h2

theorem foldl_max_mem (l : List ℚ) : ∀ a : ℚ, l.foldl max a = a ∨ l.foldl max a ∈ l := by
  induction l with
  | nil => intro a; left; rfl
  | cons b t ih =>
      intro a
      simp only [List.foldl_cons]
      rcases ih (max a b) with h | h
      · rw [h]
        rcases le_total a b with hab | hab
        · right
          rw [max_eq_right hab]
          exact List.mem_cons_self _ _
        · left
          exact max_eq_left hab
      · right
        exact List.mem_cons_of_mem _ h

theorem le_foldl_max (l : List ℚ) : ∀ a : ℚ, a ≤ l.foldl max a ∧ ∀ p ∈ l, p ≤ l.foldl max a := by
  induction l with
  | nil => intro a; exact ⟨le_refl a, by simp⟩
  | cons b t ih =>
      intro a
      obtain ⟨h1, h2⟩ := ih (max a b)
      simp only [List.foldl_cons]
      refine ⟨le_trans (le_max_left a b) h1, ?_⟩
      intro p hp
      rcases List.mem_cons.mp hp with rfl | hp
      · exact le_trans (le_max_right a _) h1
      · exact h2 p hp

theorem foldl_min_mem (l : List ℚ) : ∀ a : ℚ, l.foldl min a = a ∨ l.foldl min a ∈ l := by
  induction l with
  | nil => intro a; left; rfl
  | cons b t ih =>
      intro a
      simp only [List.foldl_cons]
      rcases ih (min a b) with h | h
      · rw [h]
        rcases le_total a b with hab | hab
        · left
          exact min_eq_left hab
        · right
          rw [min_eq_right hab]
          exact List.mem_cons_self _ _
      · right
        exact List.mem_cons_of_mem _ h

theorem foldl_min_le (l : List ℚ) : ∀ a : ℚ, l.foldl min a ≤ a ∧ ∀ p ∈ l, l.foldl min a ≤ p := by
  induction l with
  | nil => intro a; exact ⟨le_refl a, by simp⟩
  | cons b t ih =>
      intro a
      obtain ⟨h1, h2⟩ := ih (min a b)
      simp only [List.foldl_cons]
      refine ⟨le_trans h1 (min_le_left a b), ?_⟩
      intro p hp
      rcases List.mem_cons.mp hp with rfl | hp
      · exact le_trans h1 (min_le_right a _)
      · exact h2 p hp

theorem listMax_mem (l : List ℚ) (h : l ≠ []) : listMax l ∈ l := by
  cases l with
  | nil => exact absurd rfl h
  | cons p t =>
      rw [listMax]
      rcases foldl_max_mem t p with h1 | h1
      · rw [h1]
        exact List.mem_cons_self _ _
      · exact List.mem_cons_of_mem _ h1

theorem le_listMax (l : List ℚ) (p : ℚ) (hp : p ∈ l) : p ≤ listMax l := by
  cases l with
  | nil => simp at hp
  | cons q t =>
      rw [listMax]
      rcases List.mem_cons.mp hp with rfl | hp
      · exact (le_foldl_max t p).1
      · exact (le_foldl_max t q).2 p hp

theorem listMin_mem (l : List ℚ) (h : l ≠ []) : listMin l ∈ l := by
  cases l with
  | nil => exact absurd rfl h
  | cons p t =>
      rw [listMin]
      rcases foldl_min_mem t p with h1 | h1
      · rw [h1]
        exact List.mem_cons_self _ _
      · exact List.mem_cons_of_mem _ h1

theorem listMin_le (l : List ℚ) (p : ℚ) (hp : p ∈ l) : listMin l ≤ p := by
  cases l with
  | nil => simp at hp
  | cons q t =>
      rw [listMin]
      rcases List.mem_cons.mp hp with rfl | hp
      · exact (foldl_min_le t p).1
      · exact (foldl_min_le t q).2 p hp

theorem headI_mem (l : List ℚ) (h : l ≠ []) : l.headI ∈ l := by
  cases l with
  | nil => exact absurd rfl h
  | cons a t => exact List.mem_cons_self _ _

theorem getLastI_mem (l : List ℚ) (h : l ≠ []) : l.getLastI ∈ l := by
  rw [List.getLastI_eq_getLast?, List.getLast?_eq_getLast _ h]
  simp only [Option.iget_some]
  exact List.getLast_mem h

theorem takeWhile_append_all {α : Type} (p : α → Bool) (l1 l2 : List α)
    (h : ∀ x ∈ l1, p x = true) : (l1 ++ l2).takeWhile p = l1 ++ l2.takeWhile p := by
  induction l1 with
  | nil => simp
  | cons a t ih =>
      rw [List.cons_append, List.takeWhile_cons_of_pos (h a (List.mem_cons_self _ _)),
        List.cons_append, ih (fun x hx => h x (List.mem_cons_of_mem _ hx))]

theorem dropWhile_append_all {α : Type} (p : α → Bool) (l1 l2 : List α)
    (h : ∀ x ∈ l1, p x = true) : (l1 ++ l2).dropWhile p = l2.dropWhile p := by
  induction l1 with
  | nil => simp
  | cons a t ih =>
      rw [List.cons_append, List.dropWhile_cons_of_pos (h a (List.mem_cons_self _ _)),
        ih (fun x hx => h x (List.mem_cons_of_mem _ hx))]

theorem dedup_cons_block (b : ℕ) (l1 l2 : List ℕ) (h1 : ∀ x ∈ l1, x = b) (h2 : b ∉ l2) :
    (b :: (l1 ++ l2)).dedup = b :: l2.dedup := by
  induction l1 with
  | nil => simp [List.dedup_cons_of_not_mem h2]
  | cons c t ih =>
      have hc : c = b := h1 c (List.mem_cons_self _ _)
      subst hc
      rw [List.cons_append, List.dedup_cons_of_mem (List.mem_cons_self _ _)]
      exact ih (fun x hx => h1 x (List.mem_cons_of_mem _ hx))

theorem chain'_of_append_right {α : Type} {R : α → α → Prop} (l1 l2 : List α)
    (h : List.Chain' R (l1 ++ l2)) : List.Chain' R l2 := by
  induction l1 with
  | nil => exact h
  | cons a t ih => exact ih (List.Chain'.tail h)

instance : IsTrans SwapData (fun a b => a.timestamp ≤ b.timestamp) :=
  ⟨fun _ _ _ h1 h2 => le_trans h1 h2⟩

theorem ohlcRef_nil (w d0 d1 : ℕ) : ohlcRef w d0 d1 [] = [] := by
  rw [ohlcRef]

theorem ohlcRef_cons (w d0 d1 : ℕ) (s : SwapData) (rest : List SwapData) :
    ohlcRef w d0 d1 (s :: rest) =
      mkOHLC (bucketStart w s.timestamp)
        ((s :: rest.takeWhile
            (fun x => bucketStart w x.timestamp == bucketStart w s.timestamp)).map
          (swapPrice d0 d1)) ::
        ohlcRef w d0 d1
          (rest.dropWhile (fun x => bucketStart w x.timestamp == bucketStart w s.timestamp)) := by
  rw [ohlcRef]

theorem calcOHLCGo_eq_ohlcRef (w d0 d1 : ℕ) (hw : 0 < w) :
    ∀ (rest gs : List SwapData) (cur : ℕ),
      gs ≠ [] →
      (∀ x ∈ gs, bucketStart w x.timestamp = cur) →
      List.Chain' (fun a b => a.timestamp ≤ b.timestamp) (gs ++ rest) →
      calcOHLCGo w d0 d1 cur (gs.map (swapPrice d0 d1)) rest = ohlcRef w d0 d1 (gs ++ rest) := by
  intro rest
  induction rest with
  | nil =>
      intro gs cur hne hbucket _hchain
      obtain ⟨g, gs', rfl⟩ := List.exists_cons_of_ne_nil hne
      have hb : bucketStart w g.timestamp = cur := hbucket g (List.mem_cons_self _ _)
      have hall : ∀ x ∈ gs',
          (bucketStart w x.timestamp == bucketStart w g.timestamp) = true := by
        intro x hx
        rw [beq_iff_eq, hbucket x (List.mem_cons_of_mem _ hx), hb]
      have ht : gs'.takeWhile
          (fun x => bucketStart w x.timestamp == bucketStart w g.timestamp) = gs' := by
        have h := takeWhile_append_all
          (fun x => bucketStart w x.timestamp == bucketStart w g.timestamp) gs' [] hall
        simpa using h
      have hd : gs'.dropWhile
          (fun x => bucketStart w x.timestamp == bucketStart w g.timestamp) = [] := by
        have h := dropWhile_append_all
          (fun x => bucketStart w x.timestamp == bucketStart w g.timestamp) gs' [] hall
        simpa using h
      rw [List.append_nil, ohlcRef_cons, ht, hd, hb, ohlcRef_nil]
      simp only [calcOHLCGo]
      rw [if_neg (by simp)]
  | cons r rest' ih =>
      intro gs cur hne hbucket hchain
      obtain ⟨g, gs', rfl⟩ := List.exists_cons_of_ne_nil hne
      have hb : bucketStart w g.timestamp = cur := hbucket g (List.mem_cons_self _ _)
      have hpair := (List.chain'_iff_pairwise).mp hchain
      rw [List.pairwise_append] at hpair
      have hglast_le : ∀ x ∈ g :: gs', x.timestamp ≤ r.timestamp :=
        fun x hx => hpair.2.2 x hx r (List.mem_cons_self _ _)
      by_cases hr : r.timestamp < cur + w
      · have hcur_le : cur ≤ r.timestamp := by
          have h1 : bucketStart w g.timestamp ≤ g.timestamp := bucketStart_le w _
          have h2 : g.timestamp ≤ r.timestamp := hglast_le g (List.mem_cons_self _ _)
          omega
        have hbr : bucketStart w r.timestamp = cur := by
          rw [← hb] at hcur_le hr ⊢
          exact bucketStart_eq_of_mem_bucket w g.timestamp r.timestamp hw hcur_le hr
        have step : calcOHLCGo w d0 d1 cur ((g :: gs').map (swapPrice d0 d1)) (r :: rest') =
            calcOHLCGo w d0 d1 cur (((g :: gs') ++ [r]).map (swapPrice d0 d1)) rest' := by
          simp only [calcOHLCGo, if_pos hr, List.map_append]
          rfl
        have happ : (g :: gs') ++ r :: rest' = ((g :: gs') ++ [r]) ++ rest' := by simp
        rw [step, happ]
        apply ih ((g :: gs') ++ [r]) cur
        · simp
        · intro x hx
          rcases List.mem_append.mp hx with hx | hx
          · exact hbucket x hx
          · rw [List.mem_singleton.mp hx]
            exact hbr
        · rw [← happ]
          exact hchain
      · have hge : cur + w ≤ r.timestamp := le_of_not_lt hr
        have hbgt : cur < bucketStart w r.timestamp := by
          rw [← hb] at hge ⊢
          exact bucketStart_lt_of_ge w g.timestamp r.timestamp hw hge
        have hallgs' : ∀ x ∈ gs',
            (bucketStart w x.timestamp == bucketStart w g.timestamp) = true := by
          intro x hx
          rw [beq_iff_eq, hbucket x (List.mem_cons_of_mem _ hx), hb]
        have hrneq : (bucketStart w r.timestamp == bucketStart w g.timestamp) = false := by
          rw [beq_eq_false_iff_ne, hb]
          exact ne_of_gt hbgt
        have hmapne : (g :: gs').map (swapPrice d0 d1) ≠ [] := by simp
        have step : calcOHLCGo w d0 d1 cur ((g :: gs').map (swapPrice d0 d1)) (r :: rest') =
            mkOHLC cur ((g :: gs').map (swapPrice d0 d1)) ::
              calcOHLCGo w d0 d1 (bucketStart w r.timestamp)
                ([r].map (swapPrice d0 d1)) rest' := by
          simp only [calcOHLCGo, if_neg hr, if_neg hmapne]
          rfl
        have hrec : calcOHLCGo w d0 d1 (bucketStart w r.timestamp)
            ([r].map (swapPrice d0 d1)) rest' = ohlcRef w d0 d1 ([r] ++ rest') := by
          apply ih [r] (bucketStart w r.timestamp)
          · simp
          · intro x hx
            rw [List.mem_singleton.mp hx]
          · exact chain'_of_append_right (g :: gs') (r :: rest') hchain
        rw [step, hrec]
        have hcons : (g :: gs') ++ r :: rest' = g :: (gs' ++ r :: rest') := rfl
        rw [hcons, ohlcRef_cons w d0 d1 g (gs' ++ r :: rest'),
          takeWhile_append_all _ gs' (r :: rest') hallgs',
          dropWhile_append_all _ gs' (r :: rest') hallgs',
          List.takeWhile_cons_of_neg (by simp [hrneq]),
          List.dropWhile_cons_of_neg (by simp [hrneq]), hb]
        simp

theorem calculateOHLC_eq_ohlcRef (swaps : List SwapData) (w d0 d1 : ℕ) (hw : 0 < w)
    (hchain : List.Chain' (fun a b => a.timestamp ≤ b.timestamp) swaps) :
    calculateOHLC swaps w d0 d1 = ohlcRef w d0 d1 swaps := by
  cases swaps with
  | nil => rw [ohlcRef_nil]; rfl
  | cons s rest =>
      rw [calculateOHLC]
      have hlt : s.timestamp < bucketStart w s.timestamp + w := lt_bucketStart_add w _ hw
      have step : calcOHLCGo w d0 d1 (bucketStart w s.timestamp) [] (s :: rest) =
          calcOHLCGo w d0 d1 (bucketStart w s.timestamp)
            ([s].map (swapPrice d0 d1)) rest := by
        simp only [calcOHLCGo, if_pos hlt]
        rfl
      rw [step]
      have h := calcOHLCGo_eq_ohlcRef w d0 d1 hw rest [s] (bucketStart w s.timestamp)
        (by simp) (by intro x hx; rw [List.mem_singleton.mp hx]) (by simpa using hchain)
      simpa using h

theorem dropWhile_head_not {α : Type} (p : α → Bool) :
    ∀ (l : List α) (r : α) (t : List α), l.dropWhile p = r :: t → p r = false := by
  intro l
  induction l with
  | nil => intro r t h; simp at h
  | cons a l' ih =>
      intro r t h
      by_cases ha : p a
      · rw [List.dropWhile_cons_of_pos ha] at h
        exact ih r t h
      · rw [List.dropWhile_cons_of_neg ha] at h
        cases h
        simpa using ha

theorem chain'_dropWhile {α : Type} {R : α → α → Prop} (p : α → Bool) (l : List α)
    (h : List.Chain' R l) : List.Chain' R (l.dropWhile p) := by
  obtain ⟨pre, hpre⟩ := List.dropWhile_suffix p (l := l)
  apply chain'_of_append_right pre
  rw [hpre]
  exact h

theorem rem_buckets_gt (w d0 d1 : ℕ) (s : SwapData) (rest : List SwapData)
    (hchain : List.Chain' (fun a b => a.timestamp ≤ b.timestamp) (s :: rest)) :
    ∀ x ∈ rest.dropWhile
        (fun x => bucketStart w x.timestamp == bucketStart w s.timestamp),
      bucketStart w s.timestamp < bucketStart w x.timestamp := by
  intro x hx
  cases hrem : rest.dropWhile
      (fun x => bucketStart w x.timestamp == bucketStart w s.timestamp) with
  | nil => rw [hrem] at hx; simp at hx
  | cons r' rem'' =>
      rw [hrem] at hx
      have hpair : List.Pairwise (fun a b => a.timestamp ≤ b.timestamp) (s :: rest) :=
        List.chain'_iff_pairwise.mp hchain
      have hsuffix : (r' :: rem'') <:+ rest := by
        rw [← hrem]
        exact List.dropWhile_suffix _
      obtain ⟨pre, hpre⟩ := hsuffix
      have hr'rest : r' ∈ rest := by
        rw [← hpre]
        exact List.mem_append_right _ (List.mem_cons_self _ _)
      have hs_le : s.timestamp ≤ r'.timestamp := (List.pairwise_cons.mp hpair).1 r' hr'rest
      have hbne : (bucketStart w r'.timestamp == bucketStart w s.timestamp) = false :=
        dropWhile_head_not _ rest r' rem'' hrem
      have hbneq : bucketStart w r'.timestamp ≠ bucketStart w s.timestamp := by
        simpa using hbne
      have hblt : bucketStart w s.timestamp < bucketStart w r'.timestamp :=
        lt_of_le_of_ne (bucketStart_mono w hs_le) (Ne.symm hbneq)
      rcases List.mem_cons.mp hx with rfl | hx'
      · exact hblt
      · have hpr : List.Pairwise (fun a b => a.timestamp ≤ b.timestamp) rest :=
          (List.pairwise_cons.mp hpair).2
        have hprem : List.Pairwise (fun a b => a.timestamp ≤ b.timestamp) (r' :: rem'') :=
          hpr.sublist (List.IsSuffix.sublist ⟨pre, hpre⟩)
        have hr'x : r'.timestamp ≤ x.timestamp := (List.pairwise_cons.mp hprem).1 x hx'
        exact lt_of_lt_of_le hblt (bucketStart_mono w hr'x)

theorem run_buckets_eq (w : ℕ) (s : SwapData) (rest : List SwapData) :
    ∀ x ∈ rest.takeWhile
        (fun x => bucketStart w x.timestamp == bucketStart w s.timestamp),
      bucketStart w x.timestamp = bucketStart w s.timestamp := by
  intro x hx
  have := List.mem_takeWhile_imp hx
  simpa using this

theorem ohlcRef_map_timestamp_aux (w d0 d1 : ℕ) :
    ∀ (n : ℕ) (l : List SwapData), l.length ≤ n →
      List.Chain' (fun a b => a.timestamp ≤ b.timestamp) l →
      (ohlcRef w d0 d1 l).map (fun r => r.timestamp) =
        (l.map (fun s => bucketStart w s.timestamp)).dedup := by
  intro n
  induction n with
  | zero =>
      intro l hlen _
      have : l = [] := List.length_eq_zero.mp (Nat.le_zero.mp hlen)
      subst this
      simp [ohlcRef_nil]
  | succ n ihn =>
      intro l hlen hchain
      cases l with
      | nil => simp [ohlcRef_nil]
      | cons s rest =>
          have hsplit : rest.takeWhile
                (fun x => bucketStart w x.timestamp == bucketStart w s.timestamp) ++
              rest.dropWhile
                (fun x => bucketStart w x.timestamp == bucketStart w s.timestamp) = rest :=
            List.takeWhile_append_dropWhile _ _
          have hlenrem : (rest.dropWhile
              (fun x => bucketStart w x.timestamp == bucketStart w s.timestamp)).length ≤ n := by
            have h1 : (rest.dropWhile
                (fun x => bucketStart w x.timestamp == bucketStart w s.timestamp)).length ≤
                rest.length := (List.dropWhile_suffix _).length_le
            simp only [List.length_cons] at hlen
            omega
          have hchainrem := chain'_dropWhile
            (fun x => bucketStart w x.timestamp == bucketStart w s.timestamp) rest
            (List.Chain'.tail hchain)
          rw [ohlcRef_cons, List.map_cons]
          rw [ihn _ hlenrem hchainrem]
          have hrw : (s :: rest).map (fun x => bucketStart w x.timestamp) =
              bucketStart w s.timestamp ::
                ((rest.takeWhile
                    (fun x => bucketStart w x.timestamp == bucketStart w s.timestamp)).map
                  (fun x => bucketStart w x.timestamp) ++
                 (rest.dropWhile
                    (fun x => bucketStart w x.timestamp == bucketStart w s.timestamp)).map
                  (fun x => bucketStart w x.timestamp)) := by
            rw [← List.map_append, hsplit, List.map_cons]
          rw [hrw]
          rw [dedup_cons_block]
          · rfl
          · intro x hx
            obtain ⟨y, hy, rfl⟩ := List.mem_map.mp hx
            exact run_buckets_eq w s rest y hy
          · intro hcontra
            obtain ⟨y, hy, hyeq⟩ := List.mem_map.mp hcontra
            have := rem_buckets_gt w d0 d1 s rest hchain y hy
            omega

/-- Decoded prices of the swaps lying in the bucket starting at `ts`, used
to state the per-bucket OHLC field properties. -/
def bucketPrices (w d0 d1 : ℕ) (l : List SwapData) (ts : ℕ) : List ℚ :=
  (l.filter (fun s => bucketStart w s.timestamp == ts)).map (swapPrice d0 d1)

theorem ohlcRef_fields_aux (w d0 d1 : ℕ) :
    ∀ (n : ℕ) (l : List SwapData), l.length ≤ n →
      List.Chain' (fun a b => a.timestamp ≤ b.timestamp) l →
      ∀ r ∈ ohlcRef w d0 d1 l,
        bucketPrices w d0 d1 l r.timestamp ≠ [] ∧
        r.«open» = (bucketPrices w d0 d1 l r.timestamp).headI ∧
        r.close = (bucketPrices w d0 d1 l r.timestamp).getLastI ∧
        r.high ∈ bucketPrices w d0 d1 l r.timestamp ∧
        (∀ p ∈ bucketPrices w d0 d1 l r.timestamp, p ≤ r.high) ∧
        r.low ∈ bucketPrices w d0 d1 l r.timestamp ∧
        (∀ p ∈ bucketPrices w d0 d1 l r.timestamp, r.low ≤ p) := by
  intro n
  induction n with
  | zero =>
      intro l hlen _ r hr
      have : l = [] := List.length_eq_zero.mp (Nat.le_zero.mp hlen)
      subst this
      rw [ohlcRef_nil] at hr
      simp at hr
  | succ n ihn =>
      intro l hlen hchain r hr
      cases l with
      | nil =>
          rw [ohlcRef_nil] at hr
          simp at hr
      | cons s rest =>
          have hsplit : rest.takeWhile
                (fun x => bucketStart w x.timestamp == bucketStart w s.timestamp) ++
              rest.dropWhile
                (fun x => bucketStart w x.timestamp == bucketStart w s.timestamp) = rest :=
            List.takeWhile_append_dropWhile _ _
          have hlenrem : (rest.dropWhile
              (fun x => bucketStart w x.timestamp == bucketStart w s.timestamp)).length ≤ n := by
            have h1 : (rest.dropWhile
                (fun x => bucketStart w x.timestamp == bucketStart w s.timestamp)).length ≤
                rest.length := (List.dropWhile_suffix _).length_le
            simp only [List.length_cons] at hlen
            omega
          have hchainrem := chain'_dropWhile
            (fun x => bucketStart w x.timestamp == bucketStart w s.timestamp) rest
            (List.Chain'.tail hchain)
          rw [ohlcRef_cons] at hr
          rcases List.mem_cons.mp hr with rfl | hr
          · have hfilter : (s :: rest).filter
                (fun x => bucketStart w x.timestamp == bucketStart w s.timestamp) =
                s :: rest.takeWhile
                  (fun x => bucketStart w x.timestamp == bucketStart w s.timestamp) := by
              conv_lhs => rw [← hsplit]
              rw [show (s :: (rest.takeWhile
                    (fun x => bucketStart w x.timestamp == bucketStart w s.timestamp) ++
                  rest.dropWhile
                    (fun x => bucketStart w x.timestamp == bucketStart w s.timestamp))).filter
                    (fun x => bucketStart w x.timestamp == bucketStart w s.timestamp) =
                  s :: ((rest.takeWhile
                    (fun x => bucketStart w x.timestamp == bucketStart w s.timestamp) ++
                  rest.dropWhile
                    (fun x => bucketStart w x.timestamp == bucketStart w s.timestamp)).filter
                    (fun x => bucketStart w x.timestamp == bucketStart w s.timestamp))
                from List.filter_cons_of_pos (by simp)]
              rw [List.filter_append]
              rw [List.filter_eq_self.mpr (fun a ha => by
                simp [run_buckets_eq w s rest a ha])]
              rw [List.filter_eq_nil_iff.mpr (fun a ha => by
                have := rem_buckets_gt w d0 d1 s rest hchain a ha
                simp
                omega)]
              rw [List.append_nil]
            have hbp : bucketPrices w d0 d1 (s :: rest)
                (mkOHLC (bucketStart w s.timestamp)
                  ((s :: rest.takeWhile
                      (fun x => bucketStart w x.timestamp == bucketStart w s.timestamp)).map
                    (swapPrice d0 d1))).timestamp =
                (s :: rest.takeWhile
                  (fun x => bucketStart w x.timestamp == bucketStart w s.timestamp)).map
                  (swapPrice d0 d1) := by
              rw [bucketPrices]
              rw [show (mkOHLC (bucketStart w s.timestamp)
                  ((s :: rest.takeWhile
                      (fun x => bucketStart w x.timestamp == bucketStart w s.timestamp)).map
                    (swapPrice d0 d1))).timestamp = bucketStart w s.timestamp from rfl]
              rw [hfilter]
            refine ⟨?_, ?_, ?_, ?_, ?_, ?_, ?_⟩
            · rw [hbp]; simp
            · rw [hbp]; rfl
            · rw [hbp]; rfl
            · rw [hbp]; exact listMax_mem _ (by simp)
            · rw [hbp]; intro p hp; exact le_listMax _ p hp
            · rw [hbp]; exact listMin_mem _ (by simp)
            · rw [hbp]; intro p hp; exact listMin_le _ p hp
          · have hprops := ihn _ hlenrem hchainrem r hr
            have hts : r.timestamp ∈ ((rest.dropWhile
                (fun x => bucketStart w x.timestamp == bucketStart w s.timestamp)).map
                  (fun x => bucketStart w x.timestamp)) := by
              have h1 : r.timestamp ∈ (ohlcRef w d0 d1 (rest.dropWhile
                  (fun x => bucketStart w x.timestamp ==
                    bucketStart w s.timestamp))).map (fun r => r.timestamp) :=
                List.mem_map_of_mem _ hr
              rw [ohlcRef_map_timestamp_aux w d0 d1 _ _ (le_refl _) hchainrem] at h1
              exact List.mem_dedup.mp h1
            have hgt : bucketStart w s.timestamp < r.timestamp := by
              obtain ⟨y, hy, hyeq⟩ := List.mem_map.mp hts
              have := rem_buckets_gt w d0 d1 s rest hchain y hy
              omega
            have hbp_eq : bucketPrices w d0 d1 (s :: rest) r.timestamp =
                bucketPrices w d0 d1 (rest.dropWhile
                  (fun x => bucketStart w x.timestamp == bucketStart w s.timestamp))
                  r.timestamp := by
              rw [bucketPrices, bucketPrices]
              conv_lhs => rw [← hsplit]
              rw [List.filter_cons_of_neg (by simp; omega)]
              rw [List.filter_append]
              rw [List.filter_eq_nil_iff.mpr (fun a ha => by
                have := run_buckets_eq w s rest a ha
                simp
                omega)]
              rw [List.nil_append]
            rw [hbp_eq]
            exact hprops

/-- First scenario trade: second 100, decodes to price 1000. -/
def swapT1 : SwapData :=
  { id := "t1", timestamp := 100, sqrtPriceX96 := 2505414483750479311864138015697 }

/-- Second scenario trade: second 1800, decodes to price 1050. -/
def swapT2 : SwapData :=
  { id := "t2", timestamp := 1800, sqrtPriceX96 := 2567285886331324574172843585079 }

/-- Third scenario trade: second 3500, decodes to price 980. -/
def swapT3 : SwapData :=
  { id := "t3", timestamp := 3500, sqrtPriceX96 := 2480233799600139944145424026251 }

theorem priceT1 : swapPrice 0 0 swapT1 = 1000 := by
  rw [swapPrice, sqrtPriceX96ToPrice]
  norm_num [swapT1]

theorem priceT2 : swapPrice 0 0 swapT2 = 1050 := by
  rw [swapPrice, sqrtPriceX96ToPrice]
  norm_num [swapT2]

theorem priceT3 : swapPrice 0 0 swapT3 = 980 := by
  rw [swapPrice, sqrtPriceX96ToPrice]
  norm_num [swapT3]

theorem scenario_chain :
    List.Chain' (fun a b => a.timestamp ≤ b.timestamp) [swapT1, swapT2, swapT3] :=
  List.chain'_cons.mpr ⟨by decide,
    List.chain'_cons.mpr ⟨by decide, List.chain'_singleton _⟩⟩

theorem calculateOHLC_scenario :
    calculateOHLC [swapT1, swapT2, swapT3] 3600 0 0 =
      [{ timestamp := 0, «open» := 1000, high := 1050, low := 980, close := 980 }] := by
  have hb : bucketStart 3600 swapT1.timestamp = 0 := by decide
  rw [calculateOHLC, hb]
  simp only [calcOHLCGo]
  rw [if_pos (by decide : swapT1.timestamp < 0 + 3600),
    if_pos (by decide : swapT2.timestamp < 0 + 3600),
    if_pos (by decide : swapT3.timestamp < 0 + 3600)]
  rw [if_neg (by simp)]
  simp only [List.nil_append, List.cons_append, List.singleton_append]
  rw [priceT1, priceT2, priceT3, mkOHLC]
  simp only [listMax, listMin, List.foldl_cons, List.foldl_nil, List.headI, List.getLastI]
  norm_num [max_def, min_def]

/-- Claim C4: on a non-empty timestamp-sorted swap list with positive bucket
width, calculateOHLC emits exactly one record per bucket containing at
least one swap (timestamps are the deduplicated bucket starts, in order; no
record for empty buckets), with open the first decoded price of the bucket,
close the last, high a maximal and low a minimal price of the bucket (hence
low <= open <= high and low <= close <= high); and the three-trade
3600-second scenario yields exactly one row 1000/1050/980/980. -/
theorem calculateOHLC_bucket_spec :
    (∀ (swaps : List SwapData) (w d0 d1 : ℕ),
        0 < w → swaps ≠ [] →
        List.Chain' (fun a b => a.timestamp ≤ b.timestamp) swaps →
        ((calculateOHLC swaps w d0 d1).map (fun r => r.timestamp) =
            (swaps.map (fun s => bucketStart w s.timestamp)).dedup ∧
          ∀ r ∈ calculateOHLC swaps w d0 d1,
            bucketPrices w d0 d1 swaps r.timestamp ≠ [] ∧
            r.«open» = (bucketPrices w d0 d1 swaps r.timestamp).headI ∧
            r.close = (bucketPrices w d0 d1 swaps r.timestamp).getLastI ∧
            r.high ∈ bucketPrices w d0 d1 swaps r.timestamp ∧
            (∀ p ∈ bucketPrices w d0 d1 swaps r.timestamp, p ≤ r.high) ∧
            r.low ∈ bucketPrices w d0 d1 swaps r.timestamp ∧
            (∀ p ∈ bucketPrices w d0 d1 swaps r.timestamp, r.low ≤ p) ∧
            r.low ≤ r.«open» ∧ r.«open» ≤ r.high ∧ r.low ≤ r.close ∧ r.close ≤ r.high)) ∧
    calculateOHLC [swapT1, swapT2, swapT3] 3600 0 0 =
      [{ timestamp := 0, «open» := 1000, high := 1050, low := 980, close := 980 }] := by
  constructor
  · intro swaps w d0 d1 hw _hne hchain
    rw [calculateOHLC_eq_ohlcRef swaps w d0 d1 hw hchain]
    constructor
    · exact ohlcRef_map_timestamp_aux w d0 d1 swaps.length swaps (le_refl _) hchain
    · intro r hr
      obtain ⟨hne, hopen, hclose, hhi_mem, hhi_ub, hlo_mem, hlo_lb⟩ :=
        ohlcRef_fields_aux w d0 d1 swaps.length swaps (le_refl _) hchain r hr
      have hopen_mem : r.«open» ∈ bucketPrices w d0 d1 swaps r.timestamp := by
        rw [hopen]
        exact headI_mem _ hne
      have hclose_mem : r.close ∈ bucketPrices w d0 d1 swaps r.timestamp := by
        rw [hclose]
        exact getLastI_mem _ hne
      exact ⟨hne, hopen, hclose, hhi_mem, hhi_ub, hlo_mem, hlo_lb,
        hlo_lb _ hopen_mem, hhi_ub _ hopen_mem, hlo_lb _ hclose_mem, hhi_ub _ hclose_mem⟩
  · exact calculateOHLC_scenario

/-- Witness for claim C4 at the scenario input: the hypotheses hold for the
three sorted trades and the theorem yields the bucket-timestamp equation. -/
theorem calculateOHLC_bucket_spec_witness :
    0 < 3600 ∧ ([swapT1, swapT2, swapT3] : List SwapData) ≠ [] ∧
    List.Chain' (fun a b => a.timestamp ≤ b.timestamp) [swapT1, swapT2, swapT3] ∧
    (calculateOHLC [swapT1, swapT2, swapT3] 3600 0 0).map (fun r => r.timestamp) =
      ([swapT1, swapT2, swapT3].map (fun s => bucketStart 3600 s.timestamp)).dedup :=
  ⟨by norm_num, by simp, scenario_chain,
   (calculateOHLC_bucket_spec.1 [swapT1, swapT2, swapT3] 3600 0 0 (by norm_num) (by simp)
      scenario_chain).1⟩
